import Mathlib

/-!
Verification of the layer-download core of `docker-machine-oneview`.

The repository's `src` holds: the mock layer store and chain-ID helper of
`distribution/xfer/download_test.go`, and the OneView client
(`GetProfileNameBySN`).  The download manager itself (`download.go`,
`transfer.go`) is not among the source files, so the manager-level
behaviour (dispatch, dedup registry, semaphore, cancellation) is modelled
from the spec where noted.

The content digest `digest.FromBytes` is external library code
(`github.com/docker/distribution/digest`); all definitions are parametric
in the digest function `H : String → String`.
-/

deriving instance DecidableEq for Except

namespace DockerXfer

/-- Shallow embedding of `createChainIDFromParent` from
`distribution/xfer/download_test.go`: recursively folds a list of DiffIDs
onto a parent chain.  `H` stands for `digest.FromBytes` on the string bytes. -/
def createChainIDFromParent (H : String → String) (parent : String) : List String → String
  | [] => parent
  | d :: ds =>
    if parent = "" then createChainIDFromParent H d ds
    else createChainIDFromParent H (H (parent ++ " " ++ d)) ds

/-- A layer of the mock layer store (`mockLayer` in `download_test.go`):
the consumed tar bytes, the computed DiffID and ChainID, and the parent
layer (present exactly when a non-empty parent ChainID was given). -/
inductive MockLayer where
  | root (layerData : String) (diffID : String) (chainID : String)
  | child (layerData : String) (diffID : String) (chainID : String) (parent : MockLayer)
deriving DecidableEq

def MockLayer.layerData : MockLayer → String
  | .root d _ _ => d
  | .child d _ _ _ => d

def MockLayer.diffID : MockLayer → String
  | .root _ d _ => d
  | .child _ d _ _ => d

def MockLayer.chainID : MockLayer → String
  | .root _ _ c => c
  | .child _ _ c _ => c

def MockLayer.parent : MockLayer → Option MockLayer
  | .root _ _ _ => none
  | .child _ _ _ p => some p

/-- The `layers map[layer.ChainID]*mockLayer` field of `mockLayerStore`,
as an association list with Go-map (function-update) insert semantics. -/
abbrev Store := List (String × MockLayer)

/-- Association-list lookup (first match), modelling Go map read. -/
def alookup {β : Type} (k : String) : List (String × β) → Option β
  | [] => none
  | t :: ts => if t.1 = k then some t.2 else alookup k ts

/-- Remove every entry with the given key. -/
def eraseKey {β : Type} (k : String) : List (String × β) → List (String × β)
  | [] => []
  | t :: ts => if t.1 = k then eraseKey k ts else t :: eraseKey k ts

/-- Go map insert `m[k] = v`: overwrite the entry for `k`. -/
def mapInsert {β : Type} (k : String) (v : β) (m : List (String × β)) : List (String × β) :=
  (k, v) :: eraseKey k m

/-- The error `layer.ErrLayerDoesNotExist` returned by the store. -/
inductive LayerStoreError where
  | errLayerDoesNotExist
deriving DecidableEq

/-- `mockLayerStore.Get`: look the ChainID up in the map, or fail with
`ErrLayerDoesNotExist`. -/
def mockGet (ls : Store) (chainID : String) : Except LayerStoreError MockLayer :=
  match alookup chainID ls with
  | some l => .ok l
  | none => .error .errLayerDoesNotExist

/-- `mockLayerStore.Register`: resolve the parent (when the parent ChainID is
non-empty), read the bytes, compute DiffID `H bytes` and the ChainID from the
parent, build a fresh layer and overwrite the map entry.  Returns the result
together with the resulting store (the store is unchanged on failure). -/
def mockRegister (H : String → String) (ls : Store) (bytes : String) (parentID : String) :
    Except LayerStoreError MockLayer × Store :=
  if parentID = "" then
    let diffID := H bytes
    let chainID := createChainIDFromParent H parentID [diffID]
    let l := MockLayer.root bytes diffID chainID
    (.ok l, mapInsert chainID l ls)
  else
    match mockGet ls parentID with
    | .error e => (.error e, ls)
    | .ok p =>
      let diffID := H bytes
      let chainID := createChainIDFromParent H parentID [diffID]
      let l := MockLayer.child bytes diffID chainID p
      (.ok l, mapInsert chainID l ls)

/-- Stand-in for the external digest function `digest.FromBytes`, used only to
build concrete instances; it keeps the `algorithm:hex` shape. -/
def stubDigest (s : String) : String := "sha256:" ++ s

/-! ## Manager dispatch model

Modelled from the spec: `download.go` / `transfer.go` (the layer download
manager and the transfer registry) are not among the source files; §4.1,
§4.4 and §9 of the spec describe the dispatch loop.  A `Desc` is a download
descriptor reduced to its dedup `Key` and the DiffID its `Download` routine
would produce.  The registry maps each key to the (index of the) unique live
transfer for that key; a descriptor whose key is present attaches as a
watcher of the existing transfer, otherwise a new transfer is created (and
only then is `Descriptor.Download` invoked, once per transfer). -/

structure Desc where
  key : String
  produced : String
deriving DecidableEq

/-- Modelled from the spec: the manager's view of one `Download` call —
the created transfers `(key, produced DiffID)` in creation order (one
`Descriptor.Download` invocation each) and, per input descriptor, the index
of the transfer it watches. -/
structure DispatchState where
  transfers : List (String × String)
  watchers : List Nat
deriving DecidableEq

/-- Index of the first transfer with the given key (the registry lookup). -/
def keyIdx (k : String) : List (String × String) → Option Nat
  | [] => none
  | t :: ts => if t.1 = k then some 0 else (keyIdx k ts).map (· + 1)

/-- Modelled from the spec (§4.1, §4.4): process one descriptor — attach to
the existing transfer for its key, or create a fresh transfer. -/
def dispatchOne (s : DispatchState) (d : Desc) : DispatchState :=
  match keyIdx d.key s.transfers with
  | some i => { s with watchers := s.watchers ++ [i] }
  | none => { transfers := s.transfers ++ [(d.key, d.produced)],
              watchers := s.watchers ++ [s.transfers.length] }

def dispatchGo (s : DispatchState) : List Desc → DispatchState
  | [] => s
  | d :: ds => dispatchGo (dispatchOne s d) ds

/-- Dispatch a whole submission starting from an empty registry. -/
def dispatchAll (descs : List Desc) : DispatchState :=
  dispatchGo ⟨[], []⟩ descs

/-- Number of transfers created for a key = number of `Descriptor.Download`
invocations for that key. -/
def countKey (k : String) (ts : List (String × String)) : Nat :=
  ts.countP (fun t => t.1 == k)

/-- The first descriptor of a submission carrying the given key (its
`Download` routine is the one the shared transfer runs). -/
def firstWithKey (k : String) : List Desc → Option Desc
  | [] => none
  | d :: ds => if d.key = k then some d else firstWithKey k ds

def lookupNat (i : Nat) : List (Nat × String) → Option String
  | [] => none
  | t :: ts => if t.1 = i then some t.2 else lookupNat i ts

/-- Modelled from the spec: transfers complete in an arbitrary order `sched`
(a list of transfer indices); each completion logs the transfer's resulting
DiffID. -/
def completionLog (ts : List (String × String)) (sched : List Nat) : List (Nat × String) :=
  sched.map (fun i => (i, (ts.getD i ("", "")).2))

/-- Modelled from the spec (§4.4): the manager's `Download` — dispatch the
descriptors, let transfers complete in schedule order, then collect each
watcher's DiffID in input order and append them to the initial rootFS.
Returns `none` when some watched transfer never completed (unsuccessful
call). -/
def downloadResult (initial : List String) (descs : List Desc) (sched : List Nat) :
    Option (List String) :=
  let s := dispatchAll descs
  let log := completionLog s.transfers sched
  let rs := s.watchers.map (fun i => lookupNat i log)
  if rs.all Option.isSome then some (initial ++ rs.map (fun o => o.getD "")) else none

/-- The DiffID the watcher at position `j` receives (also the value its
descriptor's `Registered` callback is invoked with). -/
def resultAt (s : DispatchState) (j : Nat) : Option String :=
  (s.watchers[j]?).bind (fun i => (s.transfers[i]?).map (fun t => t.2))

/-! ## Semaphore model

Modelled from the spec (§5): `download.go` is not among the source files; a
single counting semaphore of capacity `maxConcurrency` bounds the number of
tasks simultaneously inside `Descriptor.Download`.  A task acquires a slot
before entering `Download` and releases it on leaving. -/

inductive TaskPhase where
  | pending
  | downloading
  | finished
deriving DecidableEq

/-- Modelled from the spec: phases of all tasks plus free semaphore slots. -/
structure PoolState where
  tasks : List TaskPhase
  avail : Nat
deriving DecidableEq

def countDownloading (ts : List TaskPhase) : Nat :=
  ts.countP (fun p => decide (p = TaskPhase.downloading))

/-- Modelled from the spec (§5): a pending task may enter `Download` only by
taking a free semaphore slot; a downloading task leaving `Download` returns
its slot. -/
inductive PoolStep : PoolState → PoolState → Prop where
  | acquire (s : PoolState) (i : Nat) (h : s.tasks[i]? = some .pending)
      (ha : 0 < s.avail) :
      PoolStep s ⟨s.tasks.set i .downloading, s.avail - 1⟩
  | finish (s : PoolState) (i : Nat) (h : s.tasks[i]? = some .downloading) :
      PoolStep s ⟨s.tasks.set i .finished, s.avail + 1⟩

/-- States reachable from an initial state with all tasks pending and all
`N` semaphore slots free (a fresh `Download` call of a manager built by
`NewLayerDownloadManager(store, N)`). -/
inductive PoolReach (N : Nat) : PoolState → Prop where
  | init (n : Nat) : PoolReach N ⟨List.replicate n .pending, N⟩
  | step {s t : PoolState} : PoolReach N s → PoolStep s t → PoolReach N t

/-! ## Cancellation model

Modelled from the spec (§4.4, §5, §7): `download.go` is not among the source
files.  Transfers of one `Download` call start `running`; an execution is a
sequence of events — a transfer completing (which registers it into the
store) or the caller's context being cancelled.  After cancellation nothing
further happens: every still-running transfer terminates `cancelled` and is
never registered, and the call reports `context.Canceled`. -/

inductive TransferState where
  | running
  | done
  | cancelled
deriving DecidableEq

inductive DlEvent where
  | complete (i : Nat)
  | cancel
deriving DecidableEq

/-- Modelled from the spec: statuses of the call's transfers, the layer-store
registration log (indices of registered transfers, in order), and whether the
caller's context has been cancelled. -/
structure CancelRun where
  statuses : List TransferState
  regs : List Nat
  ctxCancelled : Bool
deriving DecidableEq

def stepEvent (s : CancelRun) (e : DlEvent) : CancelRun :=
  if s.ctxCancelled then s
  else
    match e with
    | .complete i =>
      if s.statuses[i]? = some .running then
        ⟨s.statuses.set i .done, s.regs ++ [i], false⟩
      else s
    | .cancel =>
      ⟨s.statuses.map (fun st => if st = .running then .cancelled else st),
       s.regs, true⟩

def runEvents (n : Nat) (evs : List DlEvent) : CancelRun :=
  evs.foldl stepEvent ⟨List.replicate n .running, [], false⟩

inductive DlOutcome where
  | success (regs : List Nat)
  | canceledErr
  | incomplete
deriving DecidableEq

/-- Modelled from the spec (§4.4): the value `Download` returns — success
when every transfer is done, the error `context.Canceled` when the caller's
context was cancelled first. -/
def downloadOutcome (n : Nat) (evs : List DlEvent) : DlOutcome :=
  let s := runEvents n evs
  if s.statuses.all (fun st => decide (st = .done)) then .success s.regs
  else if s.ctxCancelled then .canceledErr
  else .incomplete

/-- Execution invariant of the cancellation model: a transfer is registered
exactly when it is `done`, and after the context is cancelled no transfer is
still `running`. -/
def CancelRunInv (n : Nat) (s : CancelRun) : Prop :=
  s.statuses.length = n ∧
  (∀ i, s.statuses[i]? = some TransferState.done ↔ i ∈ s.regs) ∧
  (s.ctxCancelled = true →
    ∀ (i : Nat) (st : TransferState), s.statuses[i]? = some st → st ≠ TransferState.running)

end DockerXfer

namespace OneView

/-- `ServerProfile` from `drivers/oneview/ov` (src/unnamed/part_000). -/
structure ServerProfile where
  Type_ : String
  URI : String
  Name : String
  Description : String
  SerialNumber : String
  UUID : String
  ServerHardwareURI : String
  ServerHardwareTypeURI : String
  EnclosureGroupURI : String
  EnclosureURI : String
  EnclosureBay : Int
  Affinity : String
  Created : String
  Modified : String
  Status : String
  State : String
  InProgress : Bool
  TaskURI : String
  ETAG : String
deriving DecidableEq

/-- The Go zero value of `ServerProfile` (the declared `var profile`). -/
def zeroServerProfile : ServerProfile :=
  ⟨"", "", "", "", "", "", "", "", "", "", 0, "", "", "", "", "", false, "", ""⟩

/-- `ServerProfileList` from `drivers/oneview/ov`. -/
structure ServerProfileList where
  Total : Int
  Count : Int
  Start : Int
  PrevPageURI : String
  NextPageURI : String
  URI : String
  Members : List ServerProfile
deriving DecidableEq

/-- A Go computation that either returns normally or panics (models the
run-time panic of an out-of-bounds slice index). -/
inductive GoResult (α : Type) where
  | ok (a : α)
  | panicked
deriving DecidableEq

/-- Shallow embedding of `OVClient.GetProfileNameBySN`.  The REST call
`RestAPICall` is abstracted by its outcome `restResult` (the returned body or
a non-nil error) and `json.Unmarshal` by the decoder `unmarshal`; error
values are modelled as their messages.  `Members[0]` on an empty slice is the
Go panic, modelled by `GoResult.panicked`. -/
def GetProfileNameBySN (restResult : Except String String)
    (unmarshal : String → Except String ServerProfileList) :
    GoResult (ServerProfile × Option String) :=
  match restResult with
  | .error e => .ok (zeroServerProfile, some e)
  | .ok data =>
    match unmarshal data with
    | .error e => .ok (zeroServerProfile, some e)
    | .ok profiles =>
      if 0 < profiles.Total then
        match profiles.Members with
        | [] => .panicked
        | m :: _ => .ok (m, none)
      else .ok (zeroServerProfile, none)

end OneView

namespace DockerXfer

theorem alookup_mapInsert_self {β : Type} (k : String) (v : β) (m : List (String × β)) :
    alookup k (mapInsert k v m) = some v := by
  simp [mapInsert, alookup]

theorem alookup_eraseKey_ne {β : Type} (k k2 : String) (m : List (String × β))
    (h : k2 ≠ k) : alookup k2 (eraseKey k m) = alookup k2 m := by
  induction m with
  | nil => rfl
  | cons t ts ih =>
    by_cases ht : t.1 = k
    · have hne : ¬ t.1 = k2 := fun h2 => h (h2 ▸ ht)
      rw [eraseKey, if_pos ht, ih, alookup, if_neg hne]
    · by_cases ht2 : t.1 = k2
      · rw [eraseKey, if_neg ht, alookup, if_pos ht2, alookup, if_pos ht2]
      · rw [eraseKey, if_neg ht, alookup, if_neg ht2, alookup, if_neg ht2, ih]

theorem alookup_mapInsert_ne {β : Type} (k k2 : String) (v : β) (m : List (String × β))
    (h : k2 ≠ k) : alookup k2 (mapInsert k v m) = alookup k2 m := by
  rw [mapInsert, alookup, if_neg (fun h2 => h h2.symm), alookup_eraseKey_ne k k2 m h]

theorem eraseKey_idem {β : Type} (k : String) (m : List (String × β)) :
    eraseKey k (eraseKey k m) = eraseKey k m := by
  induction m with
  | nil => rfl
  | cons t ts ih =>
    by_cases ht : t.1 = k
    · rw [eraseKey, if_pos ht, ih]
    · rw [eraseKey, if_neg ht, eraseKey, if_neg ht, ih]

theorem mapInsert_idem {β : Type} (k : String) (v : β) (m : List (String × β)) :
    mapInsert k v (mapInsert k v m) = mapInsert k v m := by
  simp [mapInsert, eraseKey, eraseKey_idem]

/-- C1: ChainID construction.  Per layer: the chain of a single DiffID `D` on
parent `P` is `D` when `P` is empty and `H (P ++ " " ++ D)` otherwise; and the
full fold over a list of DiffIDs proceeds one layer at a time by this rule,
for every parent and list of DiffIDs. -/
theorem chainID_construction (H : String → String) (P D : String) (ds : List String) :
    createChainIDFromParent H P [D] = (if P = "" then D else H (P ++ " " ++ D)) ∧
    createChainIDFromParent H P (D :: ds) =
      createChainIDFromParent H (createChainIDFromParent H P [D]) ds := by
  by_cases h : P = "" <;> simp [createChainIDFromParent, h]

/-- C3: `LayerStore.Register` postcondition.  A successful `Register` returns
a layer whose DiffID is the digest of exactly the consumed bytes and whose
ChainID follows the recursive chain formula on the given parent ChainID, and
stores it under that ChainID; a non-empty parent ChainID absent from the
store makes `Register` fail with `ErrLayerDoesNotExist` and leaves the store
unchanged. -/
theorem register_postcondition (H : String → String) (ls : Store) (bytes parentID : String) :
    (∀ l s, mockRegister H ls bytes parentID = (.ok l, s) →
      l.diffID = H bytes ∧
      l.layerData = bytes ∧
      l.chainID = createChainIDFromParent H parentID [H bytes] ∧
      s = mapInsert l.chainID l ls) ∧
    (parentID ≠ "" → alookup parentID ls = none →
      mockRegister H ls bytes parentID = (.error .errLayerDoesNotExist, ls)) := by
  constructor
  · intro l s hreg
    by_cases hp : parentID = ""
    · simp only [mockRegister, if_pos hp, Prod.mk.injEq, Except.ok.injEq] at hreg
      obtain ⟨hl, hs⟩ := hreg
      subst hl
      subst hs
      exact ⟨rfl, rfl, rfl, rfl⟩
    · simp only [mockRegister, if_neg hp] at hreg
      cases hget : mockGet ls parentID with
      | error e =>
        rw [hget] at hreg
        exact absurd hreg (by simp)
      | ok p =>
        rw [hget] at hreg
        simp only [Prod.mk.injEq, Except.ok.injEq] at hreg
        obtain ⟨hl, hs⟩ := hreg
        subst hl
        subst hs
        exact ⟨rfl, rfl, rfl, rfl⟩
  · intro hne hnone
    simp [mockRegister, if_neg hne, mockGet, hnone]

theorem register_postcondition_witness :
    mockRegister stubDigest [] "b" "sha256:p" = (.error .errLayerDoesNotExist, []) :=
  (register_postcondition stubDigest [] "b" "sha256:p").2 (by decide) rfl

/-- C7 counterexample: `mockLayerStore.Register` never looks up the existing
entry for the resulting ChainID.  In a store whose entry at `"sha256:x"` is a
layer with data `"zzz"`, registering bytes `"x"` (whose ChainID is that same
key) returns a freshly built, distinct layer and replaces the existing entry
with it — the claim "returns the existing layer" fails at this input. -/
theorem register_idempotent_counterexample :
    alookup "sha256:x" [("sha256:x", MockLayer.root "zzz" "sha256:zzz" "sha256:x")] =
      some (MockLayer.root "zzz" "sha256:zzz" "sha256:x") ∧
    (mockRegister stubDigest
        [("sha256:x", MockLayer.root "zzz" "sha256:zzz" "sha256:x")] "x" "").1 =
      .ok (MockLayer.root "x" "sha256:x" "sha256:x") ∧
    MockLayer.root "x" "sha256:x" "sha256:x" ≠
      MockLayer.root "zzz" "sha256:zzz" "sha256:x" ∧
    alookup "sha256:x"
      (mockRegister stubDigest
        [("sha256:x", MockLayer.root "zzz" "sha256:zzz" "sha256:x")] "x" "").2 =
      some (MockLayer.root "x" "sha256:x" "sha256:x") := by
  decide

/-- C7 (amended): `Register` always builds a fresh layer and overwrites the
store entry for its ChainID, so idempotence holds as value equality for
repeat registration: registering the same bytes under the same parent
ChainID again (when the resulting ChainID is not the parent key itself)
returns a layer equal to the one just registered and leaves the store
mapping unchanged; it does not return the pre-existing layer object when the
store's entry for that ChainID was built from different bytes. -/
theorem register_repeat_idempotent (H : String → String) (ls : Store)
    (bytes parentID : String) (l1 : MockLayer) (s1 : Store)
    (hp : parentID = "" ∨ createChainIDFromParent H parentID [H bytes] ≠ parentID)
    (h1 : mockRegister H ls bytes parentID = (.ok l1, s1)) :
    mockRegister H s1 bytes parentID = (.ok l1, s1) := by
  by_cases hpe : parentID = ""
  · simp only [mockRegister, if_pos hpe, Prod.mk.injEq, Except.ok.injEq] at h1
    obtain ⟨hl, hs⟩ := h1
    subst hl
    subst hs
    simp only [mockRegister, if_pos hpe]
    rw [mapInsert_idem]
  · have hc : createChainIDFromParent H parentID [H bytes] ≠ parentID :=
      hp.resolve_left hpe
    simp only [mockRegister, if_neg hpe] at h1 ⊢
    cases hget : mockGet ls parentID with
    | error e =>
      rw [hget] at h1
      exact absurd h1 (by simp)
    | ok p =>
      rw [hget] at h1
      simp only [Prod.mk.injEq, Except.ok.injEq] at h1
      obtain ⟨hl, hs⟩ := h1
      have ha : alookup parentID ls = some p := by
        simp only [mockGet] at hget
        cases h2 : alookup parentID ls with
        | some l2 =>
          rw [h2] at hget
          simp only [Except.ok.injEq] at hget
          rw [hget]
        | none =>
          rw [h2] at hget
          exact absurd hget (by simp)
      have ha2 : alookup parentID s1 = some p := by
        rw [← hs, alookup_mapInsert_ne _ _ _ _ (Ne.symm hc)]
        exact ha
      have hget2 : mockGet s1 parentID = .ok p := by
        simp [mockGet, ha2]
      subst hl
      simp only [hget2]
      rw [← hs]
      rw [mapInsert_idem]

theorem register_repeat_idempotent_witness :
    mockRegister stubDigest [("sha256:a", MockLayer.root "a" "sha256:a" "sha256:a")] "a" "" =
      (.ok (MockLayer.root "a" "sha256:a" "sha256:a"),
        [("sha256:a", MockLayer.root "a" "sha256:a" "sha256:a")]) :=
  register_repeat_idempotent stubDigest [] "a" ""
    (MockLayer.root "a" "sha256:a" "sha256:a")
    [("sha256:a", MockLayer.root "a" "sha256:a" "sha256:a")]
    (Or.inl rfl) (by decide)

/-- C8: `LayerStore.Get` error discipline.  For a ChainID present in the
store `Get` returns its layer (it never fails on a present ChainID); for an
absent ChainID it returns the distinguishable not-found error
`ErrLayerDoesNotExist` and no layer. -/
theorem get_error_discipline (ls : Store) (c : String) :
    (∀ l, alookup c ls = some l → mockGet ls c = .ok l) ∧
    (alookup c ls = none → mockGet ls c = .error .errLayerDoesNotExist) := by
  constructor
  · intro l h
    simp [mockGet, h]
  · intro h
    simp [mockGet, h]

theorem get_error_discipline_witness :
    mockGet [] "sha256:z" = .error .errLayerDoesNotExist :=
  (get_error_discipline [] "sha256:z").2 rfl

theorem countP_set_incr {α : Type} (p : α → Bool) (l : List α) (i : Nat) (a b : α)
    (hget : l[i]? = some a) (hpa : p a = false) (hpb : p b = true) :
    (l.set i b).countP p = l.countP p + 1 := by
  induction l generalizing i with
  | nil => simp at hget
  | cons x xs ih =>
    cases i with
    | zero =>
      simp only [List.getElem?_cons_zero, Option.some.injEq] at hget
      subst hget
      simp [List.set, List.countP_cons, hpa, hpb]
    | succ j =>
      simp only [List.getElem?_cons_succ] at hget
      simp only [List.set, List.countP_cons, ih j hget]
      omega

theorem countP_set_decr {α : Type} (p : α → Bool) (l : List α) (i : Nat) (a b : α)
    (hget : l[i]? = some a) (hpa : p a = true) (hpb : p b = false) :
    (l.set i b).countP p + 1 = l.countP p := by
  induction l generalizing i with
  | nil => simp at hget
  | cons x xs ih =>
    cases i with
    | zero =>
      simp only [List.getElem?_cons_zero, Option.some.injEq] at hget
      subst hget
      simp [List.set, List.countP_cons, hpa, hpb]
    | succ j =>
      simp only [List.getElem?_cons_succ] at hget
      simp only [List.set, List.countP_cons]
      have := ih j hget
      omega

/-- In every reachable pool state, the tasks inside `Download` and the free
semaphore slots exactly account for the capacity `N`. -/
theorem pool_invariant (N : Nat) (s : PoolState) (h : PoolReach N s) :
    countDownloading s.tasks + s.avail = N := by
  induction h with
  | init n =>
    have h0 : countDownloading (List.replicate n TaskPhase.pending) = 0 := by
      rw [countDownloading, List.countP_eq_zero]
      intro a ha
      rw [List.eq_of_mem_replicate ha]
      decide
    simp [h0]
  | @step s t hr hstep ih =>
    cases hstep with
    | acquire i hget ha =>
      have hc := countP_set_incr (fun p => decide (p = TaskPhase.downloading))
        s.tasks i .pending .downloading hget (by decide) (by decide)
      dsimp only
      rw [countDownloading] at ih ⊢
      rw [hc]
      omega
    | finish i hget =>
      have hc := countP_set_decr (fun p => decide (p = TaskPhase.downloading))
        s.tasks i .downloading .finished hget (by decide) (by decide)
      dsimp only
      rw [countDownloading] at ih ⊢
      omega

/-- C4: concurrency bound.  In the semaphore model of a `Download` call of a
manager built with capacity `maxConcurrency = N`, no reachable state has more
than `N` tasks simultaneously inside `Descriptor.Download`. -/
theorem download_concurrency_bound (N : Nat) (s : PoolState) (h : PoolReach N s) :
    countDownloading s.tasks ≤ N := by
  have := pool_invariant N s h
  omega

theorem download_concurrency_bound_witness :
    countDownloading ((List.replicate 2 TaskPhase.pending).set 0 TaskPhase.downloading) ≤ 3 :=
  download_concurrency_bound 3 _
    (PoolReach.step (PoolReach.init 2) (PoolStep.acquire _ 0 rfl (by decide)))

theorem stepEvent_inv (n : Nat) (s : CancelRun) (e : DlEvent)
    (h : CancelRunInv n s) : CancelRunInv n (stepEvent s e) := by
  obtain ⟨hlen, hdone, hnr⟩ := h
  by_cases hc : s.ctxCancelled = true
  · simp only [stepEvent, if_pos hc]
    exact ⟨hlen, hdone, hnr⟩
  · cases e with
    | complete i =>
      by_cases hr : s.statuses[i]? = some TransferState.running
      · simp only [stepEvent, if_neg hc, if_pos hr]
        have hi : i < s.statuses.length := (List.getElem?_eq_some.mp hr).1
        refine ⟨by simpa using hlen, ?_, by simp⟩
        intro j
        by_cases hj : j = i
        · subst hj
          rw [List.getElem?_set_self hi]
          simp
        · rw [List.getElem?_set_ne (fun h2 => hj h2.symm)]
          rw [hdone j]
          simp [hj]
      · simp only [stepEvent, if_neg hc, if_neg hr]
        exact ⟨hlen, hdone, hnr⟩
    | cancel =>
      simp only [stepEvent, if_neg hc]
      refine ⟨by simpa using hlen, ?_, ?_⟩
      · intro j
        rw [List.getElem?_map]
        rw [← hdone j]
        cases h2 : s.statuses[j]? with
        | none => simp
        | some st => cases st <;> simp
      · intro _ j st hj
        rw [List.getElem?_map] at hj
        cases h2 : s.statuses[j]? with
        | none => rw [h2] at hj; exact absurd hj (by simp)
        | some st0 =>
          rw [h2] at hj
          have hj2 : (if st0 = TransferState.running then TransferState.cancelled else st0) = st := by
            simpa using hj
          rw [← hj2]
          cases st0 <;> decide

theorem runEvents_inv (n : Nat) (evs : List DlEvent) :
    CancelRunInv n (runEvents n evs) := by
  have hfold : ∀ (l : List DlEvent) (s : CancelRun), CancelRunInv n s →
      CancelRunInv n (l.foldl stepEvent s) := by
    intro l
    induction l with
    | nil => intro s hs; exact hs
    | cons e es ih => intro s hs; exact ih _ (stepEvent_inv n s e hs)
  refine hfold evs _ ⟨by simp, ?_, ?_⟩
  · intro i
    simp only [List.mem_nil_iff, iff_false]
    intro hi
    have := List.eq_of_mem_replicate (List.getElem?_mem hi)
    exact absurd this (by decide)
  · intro hcon
    exact absurd hcon (by simp)

/-- C6: cancellation.  In the cancellation model, a `Download` call whose
caller context was cancelled while some transfer was still running returns
the error `context.Canceled`; every transfer is either done or terminated in
the `cancelled` state, and no layer-store registration occurred for the
cancelled ones. -/
theorem cancelled_download (n : Nat) (evs : List DlEvent) (i : Nat)
    (hcancel : (runEvents n evs).ctxCancelled = true)
    (hi : (runEvents n evs).statuses[i]? = some TransferState.cancelled) :
    downloadOutcome n evs = .canceledErr ∧
    (∀ j, (runEvents n evs).statuses[j]? = some TransferState.cancelled →
      j ∉ (runEvents n evs).regs) ∧
    (∀ (j : Nat) (st : TransferState), (runEvents n evs).statuses[j]? = some st →
      st = TransferState.done ∨ st = TransferState.cancelled) := by
  obtain ⟨hlen, hdone, hnr⟩ := runEvents_inv n evs
  refine ⟨?_, ?_, ?_⟩
  · have hnall : (runEvents n evs).statuses.all (fun st => decide (st = .done)) = false := by
      rw [List.all_eq_false]
      exact ⟨TransferState.cancelled, List.getElem?_mem hi, by decide⟩
    simp [downloadOutcome, hnall, hcancel]
  · intro j hj hmem
    have hd := (hdone j).mpr hmem
    rw [hj] at hd
    exact absurd hd (by simp)
  · intro j st hj
    have hne := hnr hcancel j st hj
    cases st with
    | running => exact absurd rfl hne
    | done => exact Or.inl rfl
    | cancelled => exact Or.inr rfl

theorem cancelled_download_witness :
    downloadOutcome 2 [DlEvent.complete 0, DlEvent.cancel] = DlOutcome.canceledErr :=
  (cancelled_download 2 [DlEvent.complete 0, DlEvent.cancel] 1 (by decide) (by decide)).1

theorem keyIdx_some (k : String) (ts : List (String × String)) (i : Nat)
    (h : keyIdx k ts = some i) : ∃ v, ts[i]? = some (k, v) := by
  induction ts generalizing i with
  | nil => simp [keyIdx] at h
  | cons t ts ih =>
    obtain ⟨a, b⟩ := t
    by_cases ht : a = k
    · rw [keyIdx, if_pos ht] at h
      simp only [Option.some.injEq] at h
      subst h
      subst ht
      exact ⟨b, by simp⟩
    · rw [keyIdx, if_neg ht] at h
      cases hki : keyIdx k ts with
      | none => rw [hki] at h; simp at h
      | some j =>
        rw [hki] at h
        simp only [Option.map_some', Option.some.injEq] at h
        subst h
        obtain ⟨v, hv⟩ := ih j hki
        exact ⟨v, by simpa using hv⟩

theorem keyIdx_none_countKey (k : String) (ts : List (String × String))
    (h : keyIdx k ts = none) : countKey k ts = 0 := by
  induction ts with
  | nil => rfl
  | cons t ts ih =>
    by_cases ht : t.1 = k
    · rw [keyIdx, if_pos ht] at h
      exact absurd h (by simp)
    · rw [keyIdx, if_neg ht] at h
      have ih2 := ih (Option.map_eq_none'.mp h)
      rw [countKey] at ih2 ⊢
      rw [List.countP_cons, ih2]
      simp [ht]

theorem keyIdx_none_alookup (k : String) (ts : List (String × String)) :
    keyIdx k ts = none ↔ alookup k ts = none := by
  induction ts with
  | nil => simp [keyIdx, alookup]
  | cons t ts ih =>
    by_cases ht : t.1 = k
    · simp [keyIdx, alookup, ht]
    · simp [keyIdx, alookup, ht, Option.map_eq_none', ih]

theorem countKey_pos_of_getElem (k v : String) (ts : List (String × String))
    (j : Nat) (h : ts[j]? = some (k, v)) : 0 < countKey k ts := by
  rw [countKey, List.countP_pos_iff]
  exact ⟨(k, v), List.getElem?_mem h, by simp⟩

theorem alookup_of_getElem_uniq (k v : String) :
    ∀ (ts : List (String × String)) (i : Nat), countKey k ts ≤ 1 →
      ts[i]? = some (k, v) → alookup k ts = some v := by
  intro ts
  induction ts with
  | nil => intro i h1 h2; simp at h2
  | cons t ts ih =>
    intro i hUK h
    cases i with
    | zero =>
      simp only [List.getElem?_cons_zero, Option.some.injEq] at h
      subst h
      simp [alookup]
    | succ j =>
      simp only [List.getElem?_cons_succ] at h
      have hpos := countKey_pos_of_getElem k v ts j h
      by_cases ht : t.1 = k
      · rw [countKey, List.countP_cons] at hUK
        rw [countKey] at hpos
        simp only [ht, beq_self_eq_true, if_pos] at hUK
        omega
      · rw [alookup, if_neg ht]
        have hUK2 : countKey k ts ≤ 1 := by
          have hb : (t.1 == k) = false := by simp [ht]
          rw [countKey] at hUK ⊢
          rw [List.countP_cons, hb] at hUK
          omega
        exact ih j hUK2 h

theorem alookup_append {β : Type} (k : String) (ts ts2 : List (String × β)) :
    alookup k (ts ++ ts2) =
      match alookup k ts with
      | some v => some v
      | none => alookup k ts2 := by
  induction ts with
  | nil => simp [alookup]
  | cons t ts ih =>
    by_cases ht : t.1 = k
    · simp [alookup, ht]
    · simp only [List.cons_append, alookup, if_neg ht]
      exact ih

theorem dispatchOne_transfers_some (s : DispatchState) (d : Desc) (i : Nat)
    (h : keyIdx d.key s.transfers = some i) :
    (dispatchOne s d).transfers = s.transfers := by
  simp [dispatchOne, h]

theorem dispatchOne_watchers_some (s : DispatchState) (d : Desc) (i : Nat)
    (h : keyIdx d.key s.transfers = some i) :
    (dispatchOne s d).watchers = s.watchers ++ [i] := by
  simp [dispatchOne, h]

theorem dispatchOne_transfers_none (s : DispatchState) (d : Desc)
    (h : keyIdx d.key s.transfers = none) :
    (dispatchOne s d).transfers = s.transfers ++ [(d.key, d.produced)] := by
  simp [dispatchOne, h]

theorem dispatchOne_watchers_none (s : DispatchState) (d : Desc)
    (h : keyIdx d.key s.transfers = none) :
    (dispatchOne s d).watchers = s.watchers ++ [s.transfers.length] := by
  simp [dispatchOne, h]

theorem dispatchOne_transfers_ext (s : DispatchState) (d : Desc) :
    ∃ ext, (dispatchOne s d).transfers = s.transfers ++ ext := by
  cases hki : keyIdx d.key s.transfers with
  | some i => exact ⟨[], by simp [dispatchOne_transfers_some s d i hki]⟩
  | none => exact ⟨[(d.key, d.produced)], dispatchOne_transfers_none s d hki⟩

theorem dispatchGo_transfers_ext (ds : List Desc) :
    ∀ s : DispatchState, ∃ ext, (dispatchGo s ds).transfers = s.transfers ++ ext := by
  induction ds with
  | nil => intro s; exact ⟨[], by simp [dispatchGo]⟩
  | cons d ds ih =>
    intro s
    obtain ⟨e1, h1⟩ := dispatchOne_transfers_ext s d
    obtain ⟨e2, h2⟩ := ih (dispatchOne s d)
    refine ⟨e1 ++ e2, ?_⟩
    simp only [dispatchGo]
    rw [h2, h1, List.append_assoc]

theorem dispatchGo_transfers_getElem (ds : List Desc) (s : DispatchState) (i : Nat)
    (h : i < s.transfers.length) :
    (dispatchGo s ds).transfers[i]? = s.transfers[i]? := by
  obtain ⟨ext, he⟩ := dispatchGo_transfers_ext ds s
  rw [he, List.getElem?_append_left h]

/-- Structural characterization of the dispatch loop: transfers keep at most
one entry per key (dedup), the transfer table after dispatch maps each new
key to the produced DiffID of the first descriptor carrying it, and each
descriptor's recorded watcher points at a transfer entry with its key. -/
theorem dispatch_spec (ds : List Desc) :
    ∀ s : DispatchState, (∀ k, countKey k s.transfers ≤ 1) →
    (∀ k, countKey k (dispatchGo s ds).transfers ≤ 1) ∧
    (∀ k, alookup k (dispatchGo s ds).transfers =
      match alookup k s.transfers with
      | some v => some v
      | none => (firstWithKey k ds).map (fun e => e.produced)) ∧
    (∃ ws, (dispatchGo s ds).watchers = s.watchers ++ ws ∧ ws.length = ds.length ∧
      ∀ (j : Nat) (d : Desc), ds[j]? = some d → ∃ i v, ws[j]? = some i ∧
        (dispatchGo s ds).transfers[i]? = some (d.key, v)) := by
  induction ds with
  | nil =>
    intro s hUK
    refine ⟨hUK, ?_, [], by simp [dispatchGo], rfl, ?_⟩
    · intro k
      simp only [dispatchGo]
      cases alookup k s.transfers <;> rfl
    · intro j d hj
      simp at hj
  | cons d ds ih =>
    intro s hUK
    cases hki : keyIdx d.key s.transfers with
    | some i0 =>
      have htrS : (dispatchOne s d).transfers = s.transfers :=
        dispatchOne_transfers_some s d i0 hki
      have hwaS : (dispatchOne s d).watchers = s.watchers ++ [i0] :=
        dispatchOne_watchers_some s d i0 hki
      have hUK1 : ∀ k, countKey k (dispatchOne s d).transfers ≤ 1 := by
        intro k
        rw [htrS]
        exact hUK k
      obtain ⟨ihUK, ihLk, ws, ihW, ihLen, ihVal⟩ := ih (dispatchOne s d) hUK1
      obtain ⟨v0, hv0⟩ := keyIdx_some d.key s.transfers i0 hki
      have hi0len : i0 < s.transfers.length := (List.getElem?_eq_some.mp hv0).1
      refine ⟨?_, ?_, i0 :: ws, ?_, by simp [ihLen], ?_⟩
      · intro k
        simp only [dispatchGo]
        exact ihUK k
      · intro k
        have hl := ihLk k
        rw [htrS] at hl
        simp only [dispatchGo]
        cases ha : alookup k s.transfers with
        | some v =>
          rw [ha] at hl
          exact hl
        | none =>
          by_cases hk : k = d.key
          · exfalso
            have h2 := (keyIdx_none_alookup k s.transfers).mpr ha
            rw [hk] at h2
            exact absurd (h2.symm.trans hki) (by simp)
          · rw [ha] at hl
            have hf : firstWithKey k (d :: ds) = firstWithKey k ds := by
              rw [firstWithKey, if_neg (fun h2 => hk h2.symm)]
            show alookup k (dispatchGo (dispatchOne s d) ds).transfers =
              (firstWithKey k (d :: ds)).map (fun e => e.produced)
            rw [hf]
            exact hl
      · simp only [dispatchGo]
        rw [ihW, hwaS, List.append_assoc, List.singleton_append]
      · intro j dd hj
        cases j with
        | zero =>
          simp only [List.getElem?_cons_zero, Option.some.injEq] at hj
          subst hj
          refine ⟨i0, v0, by simp, ?_⟩
          simp only [dispatchGo]
          rw [dispatchGo_transfers_getElem ds _ i0 (by rw [htrS]; exact hi0len), htrS]
          exact hv0
        | succ j2 =>
          simp only [List.getElem?_cons_succ] at hj
          obtain ⟨i2, v2, hw2, ht2⟩ := ihVal j2 dd hj
          refine ⟨i2, v2, by simpa using hw2, ?_⟩
          simp only [dispatchGo]
          exact ht2
    | none =>
      have htrS : (dispatchOne s d).transfers = s.transfers ++ [(d.key, d.produced)] :=
        dispatchOne_transfers_none s d hki
      have hwaS : (dispatchOne s d).watchers = s.watchers ++ [s.transfers.length] :=
        dispatchOne_watchers_none s d hki
      have hc0 : List.countP (fun t => t.1 == d.key) s.transfers = 0 :=
        keyIdx_none_countKey d.key s.transfers hki
      have hUK1 : ∀ k, countKey k (dispatchOne s d).transfers ≤ 1 := by
        intro k
        rw [htrS, countKey, List.countP_append]
        by_cases hk : k = d.key
        · subst hk
          simp [hc0]
        · have h1 : List.countP (fun t => t.1 == k) [(d.key, d.produced)] = 0 := by
            simp [show d.key ≠ k from fun h2 => hk h2.symm]
          rw [h1]
          have h2 := hUK k
          rw [countKey] at h2
          omega
      obtain ⟨ihUK, ihLk, ws, ihW, ihLen, ihVal⟩ := ih (dispatchOne s d) hUK1
      refine ⟨?_, ?_, s.transfers.length :: ws, ?_, by simp [ihLen], ?_⟩
      · intro k
        simp only [dispatchGo]
        exact ihUK k
      · intro k
        have hl := ihLk k
        rw [htrS, alookup_append] at hl
        simp only [dispatchGo]
        by_cases hk : k = d.key
        · subst hk
          have han : alookup d.key s.transfers = none :=
            (keyIdx_none_alookup d.key s.transfers).mp hki
          rw [han] at hl ⊢
          have hsing : alookup d.key [(d.key, d.produced)] = some d.produced := by
            simp [alookup]
          rw [hsing] at hl
          show alookup d.key (dispatchGo (dispatchOne s d) ds).transfers =
            (firstWithKey d.key (d :: ds)).map (fun e => e.produced)
          have hfst : firstWithKey d.key (d :: ds) = some d := by
            simp [firstWithKey]
          rw [hfst]
          exact hl
        · have hsing0 : alookup k [(d.key, d.produced)] = none := by
            simp [alookup, show ¬ d.key = k from fun h2 => hk h2.symm]
          rw [hsing0] at hl
          have hf : firstWithKey k (d :: ds) = firstWithKey k ds := by
            rw [firstWithKey, if_neg (fun h2 => hk h2.symm)]
          cases ha : alookup k s.transfers with
          | some v =>
            rw [ha] at hl
            exact hl
          | none =>
            rw [ha] at hl
            show alookup k (dispatchGo (dispatchOne s d) ds).transfers =
              (firstWithKey k (d :: ds)).map (fun e => e.produced)
            rw [hf]
            exact hl
      · simp only [dispatchGo]
        rw [ihW, hwaS, List.append_assoc, List.singleton_append]
      · intro j dd hj
        cases j with
        | zero =>
          simp only [List.getElem?_cons_zero, Option.some.injEq] at hj
          subst hj
          refine ⟨s.transfers.length, d.produced, by simp, ?_⟩
          have hlt : s.transfers.length < (dispatchOne s d).transfers.length := by
            rw [htrS]
            simp
          have hget : (dispatchOne s d).transfers[s.transfers.length]? =
              some (d.key, d.produced) := by
            rw [htrS]
            exact List.getElem?_concat_length s.transfers (d.key, d.produced)
          simp only [dispatchGo]
          rw [dispatchGo_transfers_getElem ds _ _ hlt]
          exact hget
        | succ j2 =>
          simp only [List.getElem?_cons_succ] at hj
          obtain ⟨i2, v2, hw2, ht2⟩ := ihVal j2 dd hj
          refine ⟨i2, v2, by simpa using hw2, ?_⟩
          simp only [dispatchGo]
          exact ht2

theorem lookupNat_completionLog (ts : List (String × String)) (sched : List Nat)
    (i : Nat) (v : String)
    (h : lookupNat i (completionLog ts sched) = some v) :
    v = (ts.getD i ("", "")).2 := by
  induction sched with
  | nil => simp [completionLog, lookupNat] at h
  | cons j rest ih =>
    simp only [completionLog, List.map_cons] at h
    by_cases hj : j = i
    · subst hj
      rw [lookupNat, if_pos rfl] at h
      simp only [Option.some.injEq] at h
      exact h.symm
    · rw [lookupNat, if_neg hj] at h
      exact ih h

theorem downloadResult_some (initial : List String) (descs : List Desc) (sched : List Nat)
    (out : List String) (h : downloadResult initial descs sched = some out) :
    out = initial ++ ((dispatchAll descs).watchers.map
        (fun i => lookupNat i (completionLog (dispatchAll descs).transfers sched))).map
          (fun o => o.getD "") ∧
    ∀ o ∈ (dispatchAll descs).watchers.map
        (fun i => lookupNat i (completionLog (dispatchAll descs).transfers sched)),
      o.isSome = true := by
  simp only [downloadResult] at h
  by_cases hc : ((dispatchAll descs).watchers.map
      (fun i => lookupNat i (completionLog (dispatchAll descs).transfers sched))).all
        Option.isSome = true
  · rw [if_pos hc] at h
    simp only [Option.some.injEq] at h
    exact ⟨h.symm, List.all_eq_true.mp hc⟩
  · rw [if_neg hc] at h
    exact absurd h (by simp)

/-- C2: output ordering.  In the dispatch model, every successful `Download`
call extends the initial rootFS DiffID list with exactly one DiffID per
descriptor, and the entry at position `k` is the DiffID produced for
`descriptors[k]` (the produced DiffID of the first descriptor sharing its
dedup key), for every completion schedule — input order is preserved
regardless of download completion order. -/
theorem download_output_ordering (initial : List String) (descs : List Desc)
    (sched : List Nat) (out : List String)
    (hout : downloadResult initial descs sched = some out) :
    out.length = initial.length + descs.length ∧
    ∀ (k : Nat) (d : Desc), descs[k]? = some d →
      out[initial.length + k]? = (firstWithKey d.key descs).map (fun e => e.produced) := by
  obtain ⟨hUKa, hLk, ws, hW, hLen, hVal⟩ :=
    dispatch_spec descs ⟨[], []⟩ (by intro k; simp [countKey])
  have hW2 : (dispatchAll descs).watchers = ws := by
    show (dispatchGo ⟨[], []⟩ descs).watchers = ws
    rw [hW]
    rfl
  have hB : ∀ k2, alookup k2 (dispatchAll descs).transfers =
      (firstWithKey k2 descs).map (fun e => e.produced) := by
    intro k2
    exact hLk k2
  obtain ⟨hout_eq, hsome⟩ := downloadResult_some initial descs sched out hout
  constructor
  · rw [hout_eq]
    simp [hW2, hLen]
  · intro k d hk
    obtain ⟨i, v, hwk, htk⟩ := hVal k d hk
    have hwk2 : (dispatchAll descs).watchers[k]? = some i := by
      rw [hW2]
      exact hwk
    have hrs : ((dispatchAll descs).watchers.map
        (fun i2 => lookupNat i2 (completionLog (dispatchAll descs).transfers sched)))[k]? =
        some (lookupNat i (completionLog (dispatchAll descs).transfers sched)) := by
      rw [List.getElem?_map, hwk2]
      rfl
    have hmem := List.getElem?_mem hrs
    have hs := hsome _ hmem
    obtain ⟨v2, hv2⟩ := Option.isSome_iff_exists.mp hs
    have hgd : (dispatchAll descs).transfers.getD i ("", "") = (d.key, v) := by
      rw [List.getD_eq_getElem?_getD]
      rw [show (dispatchAll descs).transfers[i]? = some (d.key, v) from htk]
      rfl
    have hv2v : v2 = v := by
      rw [lookupNat_completionLog _ sched i v2 hv2, hgd]
    rw [hv2v] at hv2
    have halk : alookup d.key (dispatchAll descs).transfers = some v :=
      alookup_of_getElem_uniq d.key v (dispatchAll descs).transfers i (hUKa d.key) htk
    have hL : out[initial.length + k]? = some v := by
      rw [hout_eq,
        List.getElem?_append_right (by omega : initial.length ≤ initial.length + k)]
      have hidx : initial.length + k - initial.length = k := by omega
      rw [hidx, List.getElem?_map, hrs]
      simp [hv2]
    rw [hL, ← hB d.key, halk]

theorem download_output_ordering_witness :
    (["sha256:i", "sha256:a", "sha256:b", "sha256:a"] : List String).length =
      (["sha256:i"] : List String).length +
        ([⟨"id1", "sha256:a"⟩, ⟨"id2", "sha256:b"⟩, ⟨"id1", "sha256:a"⟩] : List Desc).length :=
  (download_output_ordering ["sha256:i"]
    [⟨"id1", "sha256:a"⟩, ⟨"id2", "sha256:b"⟩, ⟨"id1", "sha256:a"⟩] [1, 0]
    ["sha256:i", "sha256:a", "sha256:b", "sha256:a"] (by decide)).1

/-- C5: deduplication.  In the dispatch model (one registry shared by all
submitted descriptors, submissions of concurrent callers being serialized by
the registry mutex), two descriptors with equal key share one transfer: at
most one transfer — hence at most one `Descriptor.Download` invocation —
exists for that key, and both positions receive the same resulting DiffID
(the value each watcher's `Registered` callback is invoked with). -/
theorem download_deduplication (descs : List Desc) (i j : Nat) (di dj : Desc)
    (hi : descs[i]? = some di) (hj : descs[j]? = some dj) (hkey : di.key = dj.key) :
    countKey di.key (dispatchAll descs).transfers ≤ 1 ∧
    ∃ v, resultAt (dispatchAll descs) i = some v ∧
      resultAt (dispatchAll descs) j = some v := by
  obtain ⟨hUKa, hLk, ws, hW, hLen, hVal⟩ :=
    dispatch_spec descs ⟨[], []⟩ (by intro k; simp [countKey])
  have hW2 : (dispatchAll descs).watchers = ws := by
    show (dispatchGo ⟨[], []⟩ descs).watchers = ws
    rw [hW]
    rfl
  refine ⟨hUKa di.key, ?_⟩
  obtain ⟨wi, vi, hwi, hti⟩ := hVal i di hi
  obtain ⟨wj, vj, hwj, htj⟩ := hVal j dj hj
  have hai : alookup di.key (dispatchAll descs).transfers = some vi :=
    alookup_of_getElem_uniq di.key vi (dispatchAll descs).transfers wi (hUKa di.key) hti
  have haj : alookup dj.key (dispatchAll descs).transfers = some vj :=
    alookup_of_getElem_uniq dj.key vj (dispatchAll descs).transfers wj (hUKa dj.key) htj
  have hvv : vi = vj := by
    rw [hkey] at hai
    rw [hai] at haj
    simpa using haj
  refine ⟨vi, ?_, ?_⟩
  · simp only [resultAt]
    rw [hW2, hwi]
    simp only [Option.some_bind]
    rw [show (dispatchAll descs).transfers[wi]? = some (di.key, vi) from hti]
    rfl
  · simp only [resultAt]
    rw [hW2, hwj]
    rw [hvv]
    simp only [Option.some_bind]
    rw [show (dispatchAll descs).transfers[wj]? = some (dj.key, vj) from htj]
    rfl

theorem download_deduplication_witness :
    countKey "id1"
      (dispatchAll [⟨"id1", "sha256:a"⟩, ⟨"id1", "sha256:a"⟩]).transfers ≤ 1 :=
  (download_deduplication [⟨"id1", "sha256:a"⟩, ⟨"id1", "sha256:a"⟩] 0 1
    ⟨"id1", "sha256:a"⟩ ⟨"id1", "sha256:a"⟩ rfl rfl rfl).1

end DockerXfer

namespace OneView

/-- C9: `GetProfileNameBySN` error discipline.  A decoded response with
`Total ≤ 0` yields the zero-value profile together with a nil error —
indistinguishable by the error value alone from a found profile — while a
REST failure or a JSON-decoding failure yields the zero-value profile with
the non-nil error. -/
theorem getProfileNameBySN_empty_result (rest : Except String String)
    (unmarshal : String → Except String ServerProfileList) :
    (∀ data ps, rest = .ok data → unmarshal data = .ok ps → ps.Total ≤ 0 →
      GetProfileNameBySN rest unmarshal = .ok (zeroServerProfile, none)) ∧
    (∀ e, rest = .error e →
      GetProfileNameBySN rest unmarshal = .ok (zeroServerProfile, some e)) ∧
    (∀ data e, rest = .ok data → unmarshal data = .error e →
      GetProfileNameBySN rest unmarshal = .ok (zeroServerProfile, some e)) := by
  refine ⟨?_, ?_, ?_⟩
  · intro data ps hr hu ht
    subst hr
    simp [GetProfileNameBySN, hu, not_lt.mpr ht]
  · intro e hr
    subst hr
    rfl
  · intro data e hr hu
    subst hr
    simp [GetProfileNameBySN, hu]

theorem getProfileNameBySN_empty_result_witness :
    GetProfileNameBySN (.ok "d") (fun _ => .ok ⟨0, 0, 0, "", "", "", []⟩) =
      .ok (zeroServerProfile, none) :=
  (getProfileNameBySN_empty_result (.ok "d") (fun _ => .ok ⟨0, 0, 0, "", "", "", []⟩)).1
    "d" ⟨0, 0, 0, "", "", "", []⟩ rfl rfl (by decide)

/-- C10: `GetProfileNameBySN` indexes `Members[0]` guarded only by
`Total > 0`: the function never panics exactly under the precondition that
every decoded list with positive `Total` has non-empty `Members`; and for a
concrete decodable input with `Total = 1` and empty `Members` the index is
out of bounds (a panic). -/
theorem getProfileNameBySN_members_index (rest : Except String String)
    (unmarshal : String → Except String ServerProfileList) :
    ((∀ data ps, rest = .ok data → unmarshal data = .ok ps → 0 < ps.Total →
        ps.Members ≠ []) →
      GetProfileNameBySN rest unmarshal ≠ .panicked) ∧
    GetProfileNameBySN (.ok "") (fun _ => .ok ⟨1, 0, 0, "", "", "", []⟩) =
      .panicked := by
  constructor
  · intro hpre
    cases hr : rest with
    | error e => simp [GetProfileNameBySN]
    | ok data =>
      subst hr
      cases hu : unmarshal data with
      | error e => simp [GetProfileNameBySN, hu]
      | ok ps =>
        by_cases ht : 0 < ps.Total
        · have hm := hpre data ps rfl hu ht
          cases hmem : ps.Members with
          | nil => exact absurd hmem hm
          | cons m ms => simp [GetProfileNameBySN, hu, ht, hmem]
        · simp [GetProfileNameBySN, hu, ht]
  · decide

theorem getProfileNameBySN_members_index_witness :
    GetProfileNameBySN (.ok "d") (fun _ => .error "bad") ≠ GoResult.panicked :=
  (getProfileNameBySN_members_index (.ok "d") (fun _ => .error "bad")).1
    (fun _ _ _ hu _ => nomatch hu)

end OneView
